import Mathlib

/-!
Shallow embedding of the business-hours text normalizer of
`src/app/process_data.py` and of the "open now" query of `src/app/crud.py`.

Strings are modelled as lists of Unicode scalar characters (`Str`), matching
Python `str` as a sequence of code points.  The Python regular expressions of
`process_data.py` use fixed, concrete patterns; each `re.sub` call is embedded
as a dedicated left-to-right scanner implementing exactly that pattern's
leftmost, greedy-with-backtracking matching discipline.  `datetime.strptime`
is embedded for the three concrete formats used by the source
(`%I:%M%p`, `%I%p`, `%H:%M`), following CPython's `_strptime` regexes
(`%I` = `1[0-2]|0[1-9]|[1-9]`, `%H` = `2[0-3]|[0-1]\d|\d`,
`%M` = `[0-5]\d|\d`, `%p` = `am|pm` case-insensitive, full-string match).
Case mappings and whitespace classes are modelled on the ASCII range, which
covers every character class the source's patterns mention.
-/

namespace ETL

abbrev Str := List Char

/-- Decimal digit, the regex class `\d` (ASCII). -/
def isDig (c : Char) : Bool := decide (48 ≤ c.toNat ∧ c.toNat ≤ 57)

/-- Python `\s` whitespace class (ASCII part): space, \t, \n, \v, \f, \r. -/
def isPySpace (c : Char) : Bool :=
  decide (c.toNat = 32 ∨ (9 ≤ c.toNat ∧ c.toNat ≤ 13))

/-- Python `\w` word class (ASCII part): letters, digits, underscore. -/
def isWordChar (c : Char) : Bool :=
  isDig c || decide (65 ≤ c.toNat ∧ c.toNat ≤ 90) ||
    decide (97 ≤ c.toNat ∧ c.toNat ≤ 122) || decide (c.toNat = 95)

/-- Characters of the class `[:a-z]` used by the day-name strip pattern. -/
def isPreChar (c : Char) : Bool :=
  decide (c.toNat = 58) || decide (97 ≤ c.toNat ∧ c.toNat ≤ 122)

/-- Python `str.strip()` (ASCII whitespace range). -/
def pyStrip (s : Str) : Str :=
  ((s.dropWhile isPySpace).reverse.dropWhile isPySpace).reverse

/-- Python `str.lower()` on the ASCII range. -/
def asciiLower (c : Char) : Char :=
  if 65 ≤ c.toNat ∧ c.toNat ≤ 90 then Char.ofNat (c.toNat + 32) else c

def pyLower (s : Str) : Str := s.map asciiLower

/-- Does `t` begin with `pat`? -/
def startsWith : Str → Str → Bool
  | _, [] => true
  | [], _ :: _ => false
  | c :: s, d :: t => c = d && startsWith s t

/-- Python substring containment `pat in hay`. -/
def containsSub : Str → Str → Bool
  | hay, pat =>
    startsWith hay pat ||
      match hay with
      | [] => false
      | _ :: rest => containsSub rest pat

/-- Python slice `s[-2:]`. -/
def lastTwo (s : Str) : Str := s.drop (s.length - 2)

/-! ### Generic `re.sub` scanner

`scanWith try?` walks the string left to right; at each position `try?` either
matches a prefix of the remaining input — returning the replacement text and
the rest of the input after the match — or fails, in which case one character
is emitted unchanged.  This is `re.sub`'s semantics for patterns without
anchors or lookaround.  Fuel bounds the recursion; every matcher below
consumes at least one character per match, so fuel `length + 1` is exact. -/

def scanWith (try? : Str → Option (Str × Str)) : Nat → Str → Str
  | _, [] => []
  | 0, l => l
  | fuel + 1, c :: rest =>
    match try? (c :: rest) with
    | some (rep, r) => rep ++ scanWith try? fuel r
    | none => c :: scanWith try? fuel rest

/-! ### The individual `re.sub` patterns of `process_data.py` -/

/-- Matcher for `normalize_dashes`: the class `[—–−‒―]`. -/
def isExoticDash (c : Char) : Bool :=
  decide (c = '—' ∨ c = '–' ∨ c = '−' ∨ c = '‒' ∨ c = '―')

/-- The source's `normalize_dashes`: `re.sub(r"[—–−‒―]", "-", s)`. -/
def normalize_dashes (s : Str) : Str :=
  s.map (fun c => if isExoticDash c then '-' else c)

/-- Matcher for `a\.?m\.?` (resp. `p\.?m\.?` with `mer = 'p'`), replaced by
`am` / `pm`.  The optional dots are greedy, and matched longest-first. -/
def tryMerDots (mer : Char) : Str → Option (Str × Str)
  | c :: r =>
    if c = mer then
      match r with
      | '.' :: 'm' :: '.' :: r2 => some ([mer, 'm'], r2)
      | '.' :: 'm' :: r2 => some ([mer, 'm'], r2)
      | 'm' :: '.' :: r2 => some ([mer, 'm'], r2)
      | 'm' :: r2 => some ([mer, 'm'], r2)
      | _ => none
    else none
  | [] => none

/-- Tail of the pattern `\b(\d{1,2})(\s*a)\b`: after the digits, greedily
consume `\s*`, require the literal meridiem letter, and check the trailing
word boundary.  Returns the input remaining after the match. -/
def afterWsMer (mer : Char) (l : Str) : Option Str :=
  match l.dropWhile isPySpace with
  | c :: r =>
    if c = mer then
      match r with
      | [] => some r
      | d :: _ => if isWordChar d then none else some r
    else none
  | [] => none

/-- Body of `\b(\d{1,2})(\s*a)\b → \1am` (and the `p` twin) at one position:
the leading word boundary is checked by the caller; `\d{1,2}` is greedy, two
digits first, backtracking to one. -/
def tryDigitMer (mer : Char) : Str → Option (Str × Str)
  | d1 :: rest =>
    if isDig d1 then
      match rest with
      | d2 :: rest2 =>
        if isDig d2 then
          match afterWsMer mer rest2 with
          | some r => some ([d1, d2, mer, 'm'], r)
          | none =>
            match afterWsMer mer (d2 :: rest2) with
            | some r => some ([d1, mer, 'm'], r)
            | none => none
        else
          match afterWsMer mer (d2 :: rest2) with
          | some r => some ([d1, mer, 'm'], r)
          | none => none
      | [] => none
    else none
  | [] => none

/-- Scanner for the word-boundary pattern above.  `prev` is the character of
the original string just before the current position (`none` at the start);
`re.sub` keeps matching on the original text after a replacement, so after a
match the meridiem letter is the previous character. -/
def scanDigitMer (mer : Char) : Nat → Option Char → Str → Str
  | _, _, [] => []
  | 0, _, l => l
  | fuel + 1, prev, c :: rest =>
    if (match prev with | none => true | some p => !isWordChar p) then
      match tryDigitMer mer (c :: rest) with
      | some (rep, r) => rep ++ scanDigitMer mer fuel (some mer) r
      | none => c :: scanDigitMer mer fuel (some c) rest
    else c :: scanDigitMer mer fuel (some c) rest

/-- Greedy anchored strip of `^[:a-z]{0,4}:` with `k` class characters. -/
def dropPreK : Nat → Str → Option Str
  | 0, c :: r => if c = ':' then some r else none
  | 0, [] => none
  | k + 1, c :: r => if isPreChar c then dropPreK k r else none
  | _ + 1, [] => none

/-- The anchored `re.sub(r"^[:a-z]{0,4}:", "", s)`: the greedy `{0,4}`
tries four class characters first, backtracking down to zero. -/
def stripDayPre (s : Str) : Str :=
  match dropPreK 4 s with
  | some r => r
  | none =>
    match dropPreK 3 s with
    | some r => r
    | none =>
      match dropPreK 2 s with
      | some r => r
      | none =>
        match dropPreK 1 s with
        | some r => r
        | none =>
          match dropPreK 0 s with
          | some r => r
          | none => s

/-- Matcher for the literal `to` of `time_range.replace("to", "-")`. -/
def tryTo : Str → Option (Str × Str)
  | c :: d :: r => if c = 't' ∧ d = 'o' then some (['-'], r) else none
  | _ => none

/-- Greedy `\d{1,2}`: candidate matches in backtracking order
(two digits first, then one). -/
def matchD12 : Str → List (Str × Str)
  | a :: b :: r =>
    (if isDig a ∧ isDig b then [([a, b], r)] else []) ++
      (if isDig a then [([a], b :: r)] else [])
  | [a] => if isDig a then [([a], [])] else []
  | [] => []

/-- The group `(am|pm)`. -/
def matchMerGrp : Str → List (Str × Str)
  | c :: d :: r =>
    if (c = 'a' ∨ c = 'p') ∧ d = 'm' then [([c, d], r)] else []
  | _ => []

/-- First success of `f` over candidates in backtracking order. -/
def firstSome : List α → (α → Option β) → Option β
  | [], _ => none
  | a :: l, f => match f a with | some b => some b | none => firstSome l f

/-- Matcher for `(\d{1,2}:\d{2}(am|pm))(\d{1,2}(am|pm))`, replaced by
`\1-\3` (a dash inserted between the two meridiem-qualified times). -/
def tryGlue1 : Str → Option (Str × Str)
  | s =>
    firstSome (matchD12 s) fun g1 =>
      match g1.2 with
      | x :: a :: b :: r2 =>
        if x = ':' ∧ isDig a ∧ isDig b then
          firstSome (matchMerGrp r2) fun m1 =>
            firstSome (matchD12 m1.2) fun g3 =>
              firstSome (matchMerGrp g3.2) fun m2 =>
                some (g1.1 ++ ':' :: a :: b :: m1.1 ++ '-' :: g3.1 ++ m2.1,
                  m2.2)
        else none
      | _ => none

/-- Matcher for `(\d{2}(am|pm))(\d{1,2}:\d{2}(am|pm))`, replaced by `\1-\3`. -/
def tryGlue2 : Str → Option (Str × Str)
  | a :: b :: r1 =>
    if isDig a ∧ isDig b then
      firstSome (matchMerGrp r1) fun m1 =>
        firstSome (matchD12 m1.2) fun g3 =>
          match g3.2 with
          | y :: c :: d :: r4 =>
            if y = ':' ∧ isDig c ∧ isDig d then
              firstSome (matchMerGrp r4) fun m2 =>
                some ([a, b] ++ m1.1 ++ '-' :: g3.1 ++ ':' :: c :: d :: m2.1,
                  m2.2)
            else none
          | _ => none
    else none
  | _ => none

/-- Matcher for `--+ → -`: a maximal run of two or more dashes. -/
def tryDashRun : Str → Option (Str × Str)
  | a :: b :: r =>
    if a = '-' ∧ b = '-' then some (['-'], r.dropWhile (fun c => c = '-'))
    else none
  | _ => none

/-! ### Normalization pipeline (lines 101–118 of `process_data.py`) -/

/-- Lines 101–118 of `cleanse_time_range`: the token normalization applied
after the sentinel short-circuits, in source order. -/
def normalizeRange (s : Str) : Str :=
  let s1 := s.filter (fun c => !(c = '\u202F'))
  let s2 := s1.filter (fun c => !(c = ' '))
  let s3 := stripDayPre s2
  let s4 := scanWith (tryMerDots 'a') (s3.length + 1) s3
  let s5 := scanWith (tryMerDots 'p') (s4.length + 1) s4
  let s6 := scanDigitMer 'a' (s5.length + 1) none s5
  let s7 := scanDigitMer 'p' (s6.length + 1) none s6
  let s8 := normalize_dashes s7
  let s9 := scanWith tryTo (s8.length + 1) s8
  let s10 := scanWith tryGlue1 (s9.length + 1) s9
  let s11 := s10.map (fun c => if c = '\n' ∨ c = ',' ∨ c = ';' then '-' else c)
  let s12 := scanWith tryDashRun (s11.length + 1) s11
  scanWith tryGlue2 (s12.length + 1) s12

/-- Python `str.split("-")`. -/
def splitDash : Str → List Str
  | [] => [[]]
  | c :: r =>
    if c = '-' then [] :: splitDash r
    else
      match splitDash r with
      | [] => [[c]]
      | h :: t => (c :: h) :: t

/-! ### Per-token helpers of `process_data.py` -/

/-- Does a token carry an explicit meridiem marker (`am`/`pm` substring)? -/
def hasMer (s : Str) : Bool :=
  containsSub s ['a', 'm'] || containsSub s ['p', 'm']

/-- The source's `infer_missing_am_pm`. -/
def infer_missing_am_pm (start_time end_time : Str) : Str × Str :=
  let s := pyStrip start_time
  let e := pyStrip end_time
  if hasMer s then
    if hasMer e then (s, e) else (s, e ++ lastTwo s)
  else
    if hasMer e then (s ++ lastTwo e, e) else (s, e)

/-- The source's `fix_irregular_time_format`: the anchored
`^(\d{1,2})(\d{2})(am|pm)$` with greedy first group; a full match exists
exactly for the five- and six-character shapes below. -/
def fix_irregular_time_format : Str → Str
  | [a, b, c, m1, m2] =>
    if isDig a ∧ isDig b ∧ isDig c ∧ (m1 = 'a' ∨ m1 = 'p') ∧ m2 = 'm' then
      [a, ':', b, c, m1, m2]
    else [a, b, c, m1, m2]
  | [a, b, c, d, m1, m2] =>
    if isDig a ∧ isDig b ∧ isDig c ∧ isDig d ∧ (m1 = 'a' ∨ m1 = 'p') ∧
        m2 = 'm' then
      [a, b, ':', c, d, m1, m2]
    else [a, b, c, d, m1, m2]
  | s => s

/-! ### `datetime.strptime` for the three formats used by `convert_to_24h` -/

/-- Digit value of a digit character. -/
def dVal (c : Char) : Nat := c.toNat - 48

/-- CPython `%I`: `1[0-2]|0[1-9]|[1-9]`, candidates in alternation order. -/
def matchI : Str → List (Nat × Str)
  | s =>
    (match s with
     | a :: b :: r =>
       (if a.toNat = 49 ∧ 48 ≤ b.toNat ∧ b.toNat ≤ 50 then
          [(10 + dVal b, r)] else []) ++
         (if a.toNat = 48 ∧ 49 ≤ b.toNat ∧ b.toNat ≤ 57 then
            [(dVal b, r)] else [])
     | _ => []) ++
      (match s with
       | a :: r =>
         if 49 ≤ a.toNat ∧ a.toNat ≤ 57 then [(dVal a, r)] else []
       | [] => [])

/-- CPython `%H`: `2[0-3]|[0-1]\d|\d`, candidates in alternation order. -/
def matchH : Str → List (Nat × Str)
  | s =>
    (match s with
     | a :: b :: r =>
       (if a.toNat = 50 ∧ 48 ≤ b.toNat ∧ b.toNat ≤ 51 then
          [(20 + dVal b, r)] else []) ++
         (if (a.toNat = 48 ∨ a.toNat = 49) ∧ isDig b then
            [(dVal a * 10 + dVal b, r)] else [])
     | _ => []) ++
      (match s with
       | a :: r => if isDig a then [(dVal a, r)] else []
       | [] => [])

/-- CPython `%M`: `[0-5]\d|\d`, candidates in alternation order. -/
def matchM : Str → List (Nat × Str)
  | s =>
    (match s with
     | a :: b :: r =>
       if 48 ≤ a.toNat ∧ a.toNat ≤ 53 ∧ isDig b then
         [(dVal a * 10 + dVal b, r)] else []
     | _ => []) ++
      (match s with
       | a :: r => if isDig a then [(dVal a, r)] else []
       | [] => [])

/-- CPython `%p`: `am|pm`, case-insensitive; `true` means `pm`. -/
def matchP : Str → List (Bool × Str)
  | c :: d :: r =>
    (if asciiLower c = 'a' ∧ asciiLower d = 'm' then [(false, r)] else []) ++
      (if asciiLower c = 'p' ∧ asciiLower d = 'm' then [(true, r)] else [])
  | _ => []

/-- CPython 12-hour to 24-hour adjustment for `%I` plus `%p`. -/
def to24 (h : Nat) (pm : Bool) : Nat :=
  if pm then (if h = 12 then 12 else h + 12)
  else (if h = 12 then 0 else h)

/-- Full-string `strptime(t, "%I:%M%p")`, returning (24h hour, minute). -/
def parseIMp (s : Str) : Option (Nat × Nat) :=
  firstSome (matchI s) fun hc =>
    match hc.2 with
    | x :: r2 =>
      if x = ':' then
        firstSome (matchM r2) fun mc =>
          firstSome (matchP mc.2) fun pc =>
            if pc.2 = [] then some (to24 hc.1 pc.1, mc.1) else none
      else none
    | [] => none

/-- Full-string `strptime(t, "%I%p")`, returning (24h hour, minute 0). -/
def parseIp (s : Str) : Option (Nat × Nat) :=
  firstSome (matchI s) fun hc =>
    firstSome (matchP hc.2) fun pc =>
      if pc.2 = [] then some (to24 hc.1 pc.1, 0) else none

/-- Full-string `strptime(t, "%H:%M")`, returning (hour, minute). -/
def parseHM (s : Str) : Option (Nat × Nat) :=
  firstSome (matchH s) fun hc =>
    match hc.2 with
    | x :: r2 =>
      if x = ':' then
        firstSome (matchM r2) fun mc =>
          if mc.2 = [] then some (hc.1, mc.1) else none
      else none
    | [] => none

/-- Digit character of a value below ten. -/
def digitChar : Nat → Char
  | 0 => '0' | 1 => '1' | 2 => '2' | 3 => '3' | 4 => '4'
  | 5 => '5' | 6 => '6' | 7 => '7' | 8 => '8' | _ => '9'

/-- Two-digit zero-padded decimal rendering (for values below 100),
as produced by `strftime` field rendering. -/
def pad2 (n : Nat) : Str := [digitChar (n / 10), digitChar (n % 10)]

/-- The `strftime("%H:%M")` rendering. -/
def fmtHM (h m : Nat) : Str := pad2 h ++ ':' :: pad2 m

/-- The source's `convert_to_24h`: dots normalized to colons, then one of the
three `strptime` formats depending on the meridiem marker and colon; a parse
failure (the caught `ValueError`) yields `none`. -/
def convert_to_24h (t : Str) : Option Str :=
  let t1 := t.map (fun c => if c = '.' then ':' else c)
  if hasMer t1 then
    if t1.contains ':' then (parseIMp t1).map fun v => fmtHM v.1 v.2
    else (parseIp t1).map fun v => fmtHM v.1 v.2
  else (parseHM t1).map fun v => fmtHM v.1 v.2

/-- String-level wrapper of `convert_to_24h`. -/
def convert24 (t : String) : Option String :=
  (convert_to_24h t.data).map String.mk

/-! ### The pairing loop and `cleanse_time_range` -/

/-- The `for i in range(0, len(multiple_ranges), 2)` loop of
`cleanse_time_range`, two tokens at a time.  `none` models the early
`return [["00:00", "00:00"]]` taken when a pair has an empty or missing
token; a pair whose conversion fails on either side is skipped. -/
def processPairs : List Str → Option (List (List Str))
  | [] => some []
  | [_] => none
  | s :: e :: rest =>
    if s = [] ∨ e = [] then none
    else
      let p := infer_missing_am_pm s e
      let s1 := fix_irregular_time_format p.1
      let e1 := fix_irregular_time_format p.2
      match convert_to_24h s1, convert_to_24h e1 with
      | some a, some b => (processPairs rest).map fun ts => [a, b] :: ts
      | _, _ => processPairs rest

/-- The source's `cleanse_time_range`.  `none` models a `None`/NaN cell. -/
def cleanse_time_range (inp : Option String) : List (List String) :=
  match inp with
  | none => [["00:00", "00:00"]]
  | some s0 =>
    let s := pyStrip s0.data
    if s = [] then [["00:00", "00:00"]]
    else
      let t := pyLower s
      if containsSub t "24 hours".data then [["00:00", "23:59"]]
      else if containsSub t "closed".data then [["00:00", "00:00"]]
      else
        match processPairs (splitDash (normalizeRange t)) with
        | none => [["00:00", "00:00"]]
        | some [] => [["00:00", "00:00"]]
        | some ts => ts.map fun p => p.map String.mk

/-! ### Exceptions made explicit

`cleanse_time_rangeE` re-embeds `cleanse_time_range` with every Python
operation that can raise — `datetime.strptime` (ValueError) and list
indexing (IndexError) — returning `Except`, and with the source's two
`try/except` handlers placed exactly where the source has them: inside
`convert_to_24h` (catching ValueError) and around the loop body (catching
ValueError and IndexError). -/

inductive PyErr where
  | valueError : PyErr
  | indexError : PyErr
deriving DecidableEq

/-- Python list indexing `l[i]`, raising `IndexError` out of range. -/
def pyGetE (l : List α) (i : Nat) : Except PyErr α :=
  match l.get? i with
  | some x => Except.ok x
  | none => Except.error PyErr.indexError

/-- A `strptime` call: a failed parse raises `ValueError`. -/
def strptimeE (r : Option (Nat × Nat)) : Except PyErr (Nat × Nat) :=
  match r with
  | some v => Except.ok v
  | none => Except.error PyErr.valueError

/-- Body of `convert_to_24h` before its `except ValueError` handler. -/
def convert_body (t : Str) : Except PyErr Str :=
  let t1 := t.map fun c => if c = '.' then ':' else c
  if hasMer t1 then
    if t1.contains ':' then do
      let v ← strptimeE (parseIMp t1); pure (fmtHM v.1 v.2)
    else do
      let v ← strptimeE (parseIp t1); pure (fmtHM v.1 v.2)
  else do
    let v ← strptimeE (parseHM t1); pure (fmtHM v.1 v.2)

/-- `convert_to_24h` with its internal `except ValueError: return None`. -/
def convert_to_24hE (t : Str) : Except PyErr (Option Str) :=
  match convert_body t with
  | Except.ok v => Except.ok (some v)
  | Except.error PyErr.valueError => Except.ok none
  | Except.error e => Except.error e

/-- One iteration of the pairing loop, before its handler: `some acc` means
continue with the updated accumulator, `none` means the early sentinel
return for an empty or missing token. -/
def loopIterE (toks : List Str) (i : Nat) (acc : List (List Str)) :
    Except PyErr (Option (List (List Str))) := do
  let s ← pyGetE toks i
  if i + 1 < toks.length then
    let e ← pyGetE toks (i + 1)
    if s.isEmpty ∨ e.isEmpty then pure none
    else
      let p := infer_missing_am_pm s e
      let a? ← convert_to_24hE (fix_irregular_time_format p.1)
      let b? ← convert_to_24hE (fix_irregular_time_format p.2)
      match a?, b? with
      | some a, some b => pure (some (acc ++ [[a, b]]))
      | _, _ => pure (some acc)
  else
    pure none

/-- The closed sentinel time as a character list. -/
def s00 : Str := ['0', '0', ':', '0', '0']

/-- The indexed `for i in range(0, len, 2)` loop with the source's
`except (ValueError, IndexError)` handler around each iteration; at the end,
`times if times else [["00:00", "00:00"]]`. -/
def runLoopE (toks : List Str) (i : Nat) (acc : List (List Str)) :
    List (List Str) :=
  if _h : i < toks.length then
    match (match loopIterE toks i acc with
           | Except.ok r => r
           | Except.error _ => none) with
    | none => [[s00, s00]]
    | some acc2 => runLoopE toks (i + 2) acc2
  else if acc.isEmpty then [[s00, s00]] else acc
termination_by toks.length - i
decreasing_by omega

/-- `cleanse_time_range` with explicit exception propagation. -/
def cleanse_time_rangeE (inp : Option String) :
    Except PyErr (List (List String)) :=
  match inp with
  | none => Except.ok [["00:00", "00:00"]]
  | some s0 =>
    let s := pyStrip s0.data
    if s = [] then Except.ok [["00:00", "00:00"]]
    else
      let t := pyLower s
      if containsSub t "24 hours".data then Except.ok [["00:00", "23:59"]]
      else if containsSub t "closed".data then Except.ok [["00:00", "00:00"]]
      else
        Except.ok ((runLoopE (splitDash (normalizeRange t)) 0 []).map
          fun p => p.map String.mk)

/-! ### Shift assignment (`assign_time_shifts`) -/

/-- The four per-day columns produced by `assign_time_shifts`. -/
structure DayShifts where
  start1 : String
  end1 : String
  start2 : String
  end2 : String
deriving DecidableEq, Repr

/-- One of the four column lambdas of `assign_time_shifts`:
`x[i][j] if len(x) > i else "00:00"`, with Python (fallible) indexing. -/
def shiftCol (x : List (List String)) (i j : Nat) : Except PyErr String :=
  if i < x.length then do
    let row ← pyGetE x i
    pyGetE row j
  else pure "00:00"

/-- The source's `assign_time_shifts`, per cell: the four columns in
source order. -/
def assign_time_shifts (x : List (List String)) : Except PyErr DayShifts := do
  let a ← shiftCol x 0 0
  let b ← shiftCol x 0 1
  let c ← shiftCol x 1 0
  let d ← shiftCol x 1 1
  pure ⟨a, b, c, d⟩

/-! ### The "open now" query of `crud.py` -/

/-- A persisted `BusinessHours` row. -/
structure HourRow where
  day : String
  shift1_start : String
  shift1_end : String
  shift2_start : String
  shift2_end : String
deriving DecidableEq

/-- A persisted business with its hours rows. -/
structure BusinessRec where
  id : Nat
  hours : List HourRow
deriving DecidableEq

/-- Lexicographic order on code points: SQL / Python string `<=`. -/
def lexLe : Str → Str → Bool
  | [], _ => true
  | _ :: _, [] => false
  | a :: s, b :: t =>
    if a.toNat < b.toNat then true
    else if a.toNat = b.toNat then lexLe s t
    else false

def strLe (a b : String) : Bool := lexLe a.data b.data

/-- The time-window disjunct of the ORM filter: `shift1_start <= now <=
shift1_end` or the same for shift2, all bounds inclusive. -/
def hourRowOpen (now : String) (h : HourRow) : Bool :=
  (strLe h.shift1_start now && strLe now h.shift1_end) ||
    (strLe h.shift2_start now && strLe now h.shift2_end)

/-- The `Business.filter(Q(hours__day=...) & (Q(...) | Q(...)))` condition of
`get_businesses_open_now`: some joined hours row has the current day and the
current time inside one of its shifts. -/
def openNowFilter (day now : String) (b : BusinessRec) : Bool :=
  b.hours.any fun h => h.day = day && hourRowOpen now h

/-- The `is_closed` check: every row carries the closed sentinel. -/
def rowAllClosed (h : HourRow) : Bool :=
  h.shift1_start = "00:00" && h.shift1_end = "00:00" &&
    h.shift2_start = "00:00" && h.shift2_end = "00:00"

def businessClosed (b : BusinessRec) : Bool := b.hours.all rowAllClosed

/-- The source's `get_businesses_open_now` over a modelled database, with
the current day name and `HH:MM` time as the values `datetime.now()`
supplies.  The ORM filter keeps businesses with a matching joined hours row;
the response loop then drops fully closed businesses. -/
def get_businesses_open_now (db : List BusinessRec) (day now : String) :
    List BusinessRec :=
  (db.filter (openNowFilter day now)).filter fun b => !businessClosed b

/-! ### Well-formedness of the normalizer output -/

/-- A zero-padded 24-hour `HH:MM` string with `HH ≤ 23` and `MM ≤ 59`. -/
def validHHMM (s : String) : Bool :=
  match s.data with
  | [a, b, ':', c, d] =>
    isDig a && isDig b && isDig c && isDig d &&
      decide (dVal a * 10 + dVal b < 24) && decide (dVal c * 10 + dVal d < 60)
  | _ => false

/-- A token sequence containing a candidate pair with an empty or missing
start or end token (the global-reset condition of the pairing loop). -/
def hasBadPair : List Str → Bool
  | [] => false
  | [_] => true
  | s :: e :: rest => s.isEmpty || e.isEmpty || hasBadPair rest

/-- Pairwise grouping of the token sequence (index 0&1, 2&3, …). -/
def pairsOf : List Str → List (Str × Str)
  | s :: e :: rest => (s, e) :: pairsOf rest
  | _ => []

/-- Conversion of one candidate pair: meridiem inference, irregular-format
fixing, then 24-hour conversion of both sides; `none` when either side
fails to parse. -/
def convPair (p : Str × Str) : Option (List Str) :=
  let q := infer_missing_am_pm p.1 p.2
  match convert_to_24h (fix_irregular_time_format q.1),
      convert_to_24h (fix_irregular_time_format q.2) with
  | some a, some b => some [a, b]
  | _, _ => none

/-- A sample hours row and business used to witness C8. -/
def mondayRow : HourRow := ⟨"Monday", "09:00", "17:00", "00:00", "00:00"⟩

def mondayBiz : BusinessRec := ⟨1, [mondayRow]⟩

/-- Characters of a canonical `HH:MM-HH:MM` string: digits, colon, dash. -/
def plainChar (c : Char) : Prop := isDig c = true ∨ c = ':' ∨ c = '-'

/-- No two adjacent dashes (so the `--+` collapse pattern cannot match). -/
def noDD : Str → Prop
  | [] => True
  | [_] => True
  | a :: b :: r => ¬(a = '-' ∧ b = '-') ∧ noDD (b :: r)

/-! ## Supporting lemmas -/

theorem ok_bind (a : α) (f : α → Except PyErr β) :
    (Except.ok a >>= f) = f a := rfl

theorem error_bind (e : PyErr) (f : α → Except PyErr β) :
    ((Except.error e : Except PyErr α) >>= f) = Except.error e := rfl

theorem ok_map (f : α → β) (a : α) :
    (f <$> (Except.ok a : Except PyErr α)) = Except.ok (f a) := rfl

theorem error_map (f : α → β) (e : PyErr) :
    (f <$> (Except.error e : Except PyErr α)) = Except.error e := rfl

/-! ## Claim theorems -/

/-- Claim C1, counterexample: on `"9-5pm"` the normalizer does not return
`[["09:00","17:00"]]` — `infer_missing_am_pm` copies the end side's literal
`pm` marker onto the bare start hour, so `9` becomes `9pm`. -/
theorem cleanse_nine_dash_fivepm_not_morning :
    cleanse_time_range (some "9-5pm") ≠ [["09:00", "17:00"]] := by decide

/-- Claim C1, amended: for `"9-5pm"` the missing meridiem on the start side
is filled by copying the end side's `pm`, so the result is
`[["21:00","17:00"]]`, not `[["09:00","17:00"]]`. -/
theorem cleanse_nine_dash_fivepm :
    cleanse_time_range (some "9-5pm") = [["21:00", "17:00"]] := by decide

/-- Claim C2, counterexample: an input containing both `"closed"` and
`"24 hours"` hits the `"24 hours"` short-circuit first and therefore does not
return the closed sentinel. -/
theorem cleanse_closed_24hours_precedence :
    containsSub (pyLower (pyStrip "closed 24 hours".data)) "closed".data
        = true ∧
    cleanse_time_range (some "closed 24 hours") = [["00:00", "23:59"]] ∧
    [["00:00", "23:59"]] ≠ ([["00:00", "00:00"]] : List (List String)) :=
  ⟨by decide, by decide, by decide⟩

/-- Claim C2, amended: every input containing the substring `"closed"`
(case-insensitive, after stripping) and not containing `"24 hours"` yields
exactly the closed sentinel `[["00:00","00:00"]]`. -/
theorem cleanse_closed_without_24hours (s : String)
    (h1 : containsSub (pyLower (pyStrip s.data)) "closed".data = true)
    (h2 : containsSub (pyLower (pyStrip s.data)) "24 hours".data = false) :
    cleanse_time_range (some s) = [["00:00", "00:00"]] := by
  have hne : ¬pyStrip s.data = [] := by
    intro he
    rw [he] at h1
    exact absurd h1 (by decide)
  simp [cleanse_time_range, hne, h1, h2]

/-- Witness for the amended C2 at the concrete input `"closed"`. -/
theorem cleanse_closed_without_24hours_witness :
    containsSub (pyLower (pyStrip "closed".data)) "closed".data = true ∧
    containsSub (pyLower (pyStrip "closed".data)) "24 hours".data = false ∧
    cleanse_time_range (some "closed") = [["00:00", "00:00"]] :=
  ⟨by decide, by decide,
    cleanse_closed_without_24hours "closed" (by decide) (by decide)⟩

/-- A token sequence with a bad candidate pair makes the pairing loop take
its early sentinel return, whatever was already accumulated. -/
theorem processPairs_none_of_bad :
    ∀ toks : List Str, hasBadPair toks = true → processPairs toks = none
  | [] => by simp [hasBadPair]
  | [_] => fun _ => rfl
  | s :: e :: rest => fun h => by
    have ih := processPairs_none_of_bad rest
    by_cases hse : s = [] ∨ e = []
    · simp [processPairs, hse]
    · simp only [hasBadPair, Bool.or_eq_true, List.isEmpty_iff] at h
      rcases h with h | h
      · exact absurd h hse
      · rw [processPairs.eq_3, if_neg hse]
        dsimp only
        split
        all_goals simp [ih h]

/-- A token sequence with no bad pair makes the loop run to the end,
keeping exactly the successfully converted pairs, in order. -/
theorem processPairs_eq_filterMap :
    ∀ toks : List Str, hasBadPair toks = false →
      processPairs toks = some ((pairsOf toks).filterMap convPair)
  | [] => fun _ => rfl
  | [_] => fun h => by simp [hasBadPair] at h
  | s :: e :: rest => fun h => by
    have hs : ¬s = [] := by
      intro he2; subst he2; simp [hasBadPair] at h
    have he : ¬e = [] := by
      intro he2; subst he2; simp [hasBadPair] at h
    have hr : hasBadPair rest = false := by
      rw [hasBadPair] at h
      exact (Bool.or_eq_false_iff.mp h).2
    have ih := processPairs_eq_filterMap rest hr
    have hse : ¬(s = [] ∨ e = []) := not_or.mpr ⟨hs, he⟩
    rw [processPairs.eq_3, if_neg hse, pairsOf, List.filterMap_cons]
    cases ha : convert_to_24h
        (fix_irregular_time_format (infer_missing_am_pm s e).1) with
    | none =>
      cases hb : convert_to_24h
          (fix_irregular_time_format (infer_missing_am_pm s e).2) with
      | none => simp [convPair, ha, hb, ih]
      | some b => simp [convPair, ha, hb, ih]
    | some a =>
      cases hb : convert_to_24h
          (fix_irregular_time_format (infer_missing_am_pm s e).2) with
      | none => simp [convPair, ha, hb, ih]
      | some b => simp [convPair, ha, hb, ih]

/-- Claim C3: whenever the normalized form of the input splits into a token
sequence containing a pair with an empty or missing start or end token
(odd tail included), the whole parse collapses to the closed sentinel,
discarding any pairs already parsed. -/
theorem cleanse_bad_pair_global_reset (s : String)
    (h0 : ¬pyStrip s.data = [])
    (h1 : containsSub (pyLower (pyStrip s.data)) "24 hours".data = false)
    (h2 : containsSub (pyLower (pyStrip s.data)) "closed".data = false)
    (hbad : hasBadPair (splitDash (normalizeRange (pyLower (pyStrip s.data))))
        = true) :
    cleanse_time_range (some s) = [["00:00", "00:00"]] := by
  simp [cleanse_time_range, h0, h1, h2, processPairs_none_of_bad _ hbad]

/-- Witness for C3 at the dangling-dash input `"9am-"`, whose first parsed
candidate pair has an empty end token. -/
theorem cleanse_bad_pair_global_reset_witness :
    cleanse_time_range (some "9am-") = [["00:00", "00:00"]] :=
  cleanse_bad_pair_global_reset "9am-" (by decide) (by decide) (by decide)
    (by decide)

/-- Claim C4: with no empty or missing token in any candidate pair, a pair
that fails 24-hour conversion on either side is merely dropped, the
remaining pairs are kept in order, and an empty final result list becomes
the closed sentinel. -/
theorem cleanse_failed_pair_dropped (s : String) (toks : List Str)
    (h0 : ¬pyStrip s.data = [])
    (h1 : containsSub (pyLower (pyStrip s.data)) "24 hours".data = false)
    (h2 : containsSub (pyLower (pyStrip s.data)) "closed".data = false)
    (htoks : splitDash (normalizeRange (pyLower (pyStrip s.data))) = toks)
    (hgood : hasBadPair toks = false) :
    cleanse_time_range (some s) =
      (if (pairsOf toks).filterMap convPair = [] then [["00:00", "00:00"]]
       else ((pairsOf toks).filterMap convPair).map fun p =>
         p.map String.mk) := by
  by_cases hts : (pairsOf toks).filterMap convPair = []
  · simp [cleanse_time_range, h0, h1, h2, htoks,
      processPairs_eq_filterMap _ hgood, hts]
  · cases hc : (pairsOf toks).filterMap convPair with
    | nil => exact absurd hc hts
    | cons p r =>
      simp [cleanse_time_range, h0, h1, h2, htoks,
        processPairs_eq_filterMap _ hgood, hc, hts]

/-- Witness for C4 at `"9am-5pm-abc-def"`: the pair (abc, def) fails
conversion and is dropped while the first pair survives. -/
theorem cleanse_failed_pair_dropped_witness :
    cleanse_time_range (some "9am-5pm-abc-def") =
      (if (pairsOf ["9am".data, "5pm".data, "abc".data, "def".data]).filterMap
            convPair = [] then [["00:00", "00:00"]]
       else ((pairsOf ["9am".data, "5pm".data, "abc".data,
           "def".data]).filterMap convPair).map fun p => p.map String.mk) :=
  cleanse_failed_pair_dropped "9am-5pm-abc-def"
    ["9am".data, "5pm".data, "abc".data, "def".data]
    (by decide) (by decide) (by decide) (by decide) (by decide)

/-- Claim C6: shift assignment takes the first parsed pair as shift1 and the
second as shift2, silently discards any pair beyond the second, and fills an
absent shift1 or shift2 with `"00:00"` in both fields. -/
theorem assign_time_shifts_spec :
    assign_time_shifts [] = Except.ok ⟨"00:00", "00:00", "00:00", "00:00"⟩ ∧
    (∀ a b : String,
      assign_time_shifts [[a, b]] = Except.ok ⟨a, b, "00:00", "00:00"⟩) ∧
    ∀ (a b c d : String) (rest : List (List String)),
      assign_time_shifts ([a, b] :: [c, d] :: rest) = Except.ok ⟨a, b, c, d⟩ := by
  refine ⟨rfl, fun _ _ => rfl, fun a b c d rest => ?_⟩
  have h0 : 0 < ([a, b] :: [c, d] :: rest).length := by simp
  have h1 : 1 < ([a, b] :: [c, d] :: rest).length := by simp
  simp [assign_time_shifts, shiftCol, pyGetE, h0, h1, ok_bind, ok_map]

/-- Claim C8: the "open now" query returns a business only if some persisted
hours row for the current day has the current time within shift1 or shift2,
with both bounds inclusive. -/
theorem open_now_requires_current_shift
    (db : List BusinessRec) (day now : String) (b : BusinessRec)
    (hb : b ∈ get_businesses_open_now db day now) :
    ∃ h ∈ b.hours, h.day = day ∧
      ((strLe h.shift1_start now = true ∧ strLe now h.shift1_end = true) ∨
        (strLe h.shift2_start now = true ∧ strLe now h.shift2_end = true)) := by
  unfold get_businesses_open_now at hb
  rw [List.mem_filter] at hb
  obtain ⟨hb1, _⟩ := hb
  rw [List.mem_filter] at hb1
  obtain ⟨_, hf⟩ := hb1
  unfold openNowFilter at hf
  rw [List.any_eq_true] at hf
  obtain ⟨h, hmem, hcond⟩ := hf
  refine ⟨h, hmem, ?_⟩
  simpa [hourRowOpen, Bool.and_eq_true, Bool.or_eq_true,
    decide_eq_true_iff] using hcond

/-- Witness for C8 at a concrete one-business database. -/
theorem open_now_requires_current_shift_witness :
    mondayBiz ∈ get_businesses_open_now [mondayBiz] "Monday" "10:00" ∧
    ∃ h ∈ mondayBiz.hours, h.day = "Monday" ∧
      ((strLe h.shift1_start "10:00" = true ∧
          strLe "10:00" h.shift1_end = true) ∨
        (strLe h.shift2_start "10:00" = true ∧
          strLe "10:00" h.shift2_end = true)) :=
  ⟨by decide,
    open_now_requires_current_shift [mondayBiz] "Monday" "10:00" mondayBiz
      (by decide)⟩

theorem firstSome_eq_some {l : List α} {f : α → Option β} {b : β}
    (h : firstSome l f = some b) : ∃ a ∈ l, f a = some b := by
  induction l with
  | nil => simp [firstSome] at h
  | cons a l ih =>
    rw [firstSome] at h
    cases hf : f a with
    | some c =>
      rw [hf] at h
      exact ⟨a, List.mem_cons_self a l, hf.trans h⟩
    | none =>
      rw [hf] at h
      obtain ⟨x, hx, hfx⟩ := ih h
      exact ⟨x, List.mem_cons_of_mem a hx, hfx⟩

theorem mem_guard {c : Prop} [Decidable c] {x y : α}
    (h : x ∈ (if c then [y] else [])) : c ∧ x = y := by
  split at h
  · simp at h; exact ⟨by assumption, h⟩
  · simp at h

/-- The `%I` field always yields an hour between 1 and 12. -/
theorem matchI_bound {s : Str} {v : Nat} {r : Str}
    (h : (v, r) ∈ matchI s) : 1 ≤ v ∧ v ≤ 12 := by
  rcases s with _ | ⟨a, _ | ⟨b, r0⟩⟩
  · simp [matchI] at h
  · simp only [matchI, List.nil_append] at h
    obtain ⟨hc, he⟩ := mem_guard h
    cases he
    unfold dVal
    omega
  · simp only [matchI, List.mem_append] at h
    rcases h with (h | h) | h <;>
      obtain ⟨hc, he⟩ := mem_guard h <;> cases he <;> unfold dVal <;> omega

/-- The `%H` field always yields an hour below 24. -/
theorem matchH_bound {s : Str} {v : Nat} {r : Str}
    (h : (v, r) ∈ matchH s) : v < 24 := by
  rcases s with _ | ⟨a, _ | ⟨b, r0⟩⟩
  · simp [matchH] at h
  · simp only [matchH, List.nil_append] at h
    obtain ⟨hc, he⟩ := mem_guard h
    cases he
    simp only [isDig, decide_eq_true_iff] at hc
    unfold dVal
    omega
  · simp only [matchH, List.mem_append] at h
    rcases h with (h | h) | h <;>
      obtain ⟨hc, he⟩ := mem_guard h <;> cases he <;>
      (try simp only [isDig, decide_eq_true_iff] at hc) <;> unfold dVal <;>
      omega

/-- The `%M` field always yields a minute below 60. -/
theorem matchM_bound {s : Str} {v : Nat} {r : Str}
    (h : (v, r) ∈ matchM s) : v < 60 := by
  rcases s with _ | ⟨a, _ | ⟨b, r0⟩⟩
  · simp [matchM] at h
  · simp only [matchM, List.nil_append] at h
    obtain ⟨hc, he⟩ := mem_guard h
    cases he
    simp only [isDig, decide_eq_true_iff] at hc
    unfold dVal
    omega
  · simp only [matchM, List.mem_append] at h
    rcases h with h | h <;>
      obtain ⟨hc, he⟩ := mem_guard h <;> cases he <;>
      (try simp only [isDig, decide_eq_true_iff] at hc) <;> unfold dVal <;>
      omega

/-- The 12-to-24-hour adjustment stays below 24. -/
theorem to24_bound {h : Nat} (h1 : 1 ≤ h) (h2 : h ≤ 12) (pm : Bool) :
    to24 h pm < 24 := by
  unfold to24
  split <;> split <;> omega

theorem parseIMp_bound {s : Str} {h m : Nat}
    (hp : parseIMp s = some (h, m)) : h < 24 ∧ m < 60 := by
  unfold parseIMp at hp
  obtain ⟨hc, hcm, h1⟩ := firstSome_eq_some hp
  obtain ⟨v, r⟩ := hc
  split at h1
  case h_2 => exact absurd h1 (by simp)
  case h_1 x r2 heq =>
    split at h1
    case isFalse => exact absurd h1 (by simp)
    case isTrue =>
      obtain ⟨mc, hmm, h2⟩ := firstSome_eq_some h1
      obtain ⟨mv, mr⟩ := mc
      obtain ⟨pc, hpm, h3⟩ := firstSome_eq_some h2
      obtain ⟨pv, pr⟩ := pc
      split at h3
      · obtain ⟨hi1, hi2⟩ := matchI_bound hcm
        have := matchM_bound hmm
        cases h3
        exact ⟨to24_bound hi1 hi2 _, this⟩
      · exact absurd h3 (by simp)

theorem parseIp_bound {s : Str} {h m : Nat}
    (hp : parseIp s = some (h, m)) : h < 24 ∧ m < 60 := by
  unfold parseIp at hp
  obtain ⟨hc, hcm, h1⟩ := firstSome_eq_some hp
  obtain ⟨v, r⟩ := hc
  obtain ⟨pc, hpm, h3⟩ := firstSome_eq_some h1
  obtain ⟨pv, pr⟩ := pc
  split at h3
  · obtain ⟨hi1, hi2⟩ := matchI_bound hcm
    cases h3
    exact ⟨to24_bound hi1 hi2 _, by omega⟩
  · exact absurd h3 (by simp)

theorem parseHM_bound {s : Str} {h m : Nat}
    (hp : parseHM s = some (h, m)) : h < 24 ∧ m < 60 := by
  unfold parseHM at hp
  obtain ⟨hc, hcm, h1⟩ := firstSome_eq_some hp
  obtain ⟨v, r⟩ := hc
  split at h1
  case h_2 => exact absurd h1 (by simp)
  case h_1 x r2 heq =>
    split at h1
    case isFalse => exact absurd h1 (by simp)
    case isTrue =>
      obtain ⟨mc, hmm, h2⟩ := firstSome_eq_some h1
      obtain ⟨mv, mr⟩ := mc
      split at h2
      · have hh := matchH_bound hcm
        have hm2 := matchM_bound hmm
        cases h2
        exact ⟨hh, hm2⟩
      · exact absurd h2 (by simp)

theorem digitChar_toNat {n : Nat} (h : n < 10) :
    (digitChar n).toNat = 48 + n := by
  interval_cases n <;> rfl

theorem isDig_digitChar {n : Nat} (h : n < 10) : isDig (digitChar n) = true := by
  interval_cases n <;> rfl

/-- The `strftime("%H:%M")` rendering of an in-range time is a valid
zero-padded `HH:MM` string. -/
theorem validHHMM_fmtHM {h m : Nat} (hh : h < 24) (hm : m < 60) :
    validHHMM (String.mk (fmtHM h m)) = true := by
  have d1 : h / 10 < 10 := by omega
  have d2 : h % 10 < 10 := by omega
  have d3 : m / 10 < 10 := by omega
  have d4 : m % 10 < 10 := by omega
  have e1 := digitChar_toNat d1
  have e2 := digitChar_toNat d2
  have e3 := digitChar_toNat d3
  have e4 := digitChar_toNat d4
  show validHHMM ⟨[digitChar (h / 10), digitChar (h % 10), ':',
    digitChar (m / 10), digitChar (m % 10)]⟩ = true
  unfold validHHMM
  simp only [isDig_digitChar d1, isDig_digitChar d2, isDig_digitChar d3,
    isDig_digitChar d4, Bool.true_and, Bool.and_eq_true, decide_eq_true_iff,
    dVal, e1, e2, e3, e4]
  constructor <;> omega

/-- Every successful `convert_to_24h` result is a valid `HH:MM` string. -/
theorem convert_valid {t r : Str} (h : convert_to_24h t = some r) :
    validHHMM (String.mk r) = true := by
  unfold convert_to_24h at h
  dsimp only at h
  split at h
  · split at h
    · obtain ⟨⟨hv, mv⟩, hp, hr⟩ := Option.map_eq_some'.mp h
      obtain ⟨b1, b2⟩ := parseIMp_bound hp
      rw [← hr]
      exact validHHMM_fmtHM b1 b2
    · obtain ⟨⟨hv, mv⟩, hp, hr⟩ := Option.map_eq_some'.mp h
      obtain ⟨b1, b2⟩ := parseIp_bound hp
      rw [← hr]
      exact validHHMM_fmtHM b1 b2
  · obtain ⟨⟨hv, mv⟩, hp, hr⟩ := Option.map_eq_some'.mp h
    obtain ⟨b1, b2⟩ := parseHM_bound hp
    rw [← hr]
    exact validHHMM_fmtHM b1 b2

/-- Every pair the loop accumulates is a two-element list of successful
conversion results. -/
theorem processPairs_mem :
    ∀ (toks : List Str) (ts : List (List Str)), processPairs toks = some ts →
      ∀ p ∈ ts, ∃ a b, p = [a, b] ∧
        (∃ u, convert_to_24h u = some a) ∧ ∃ v, convert_to_24h v = some b
  | [], ts => by
    intro h p hp
    rw [processPairs] at h
    cases h
    simp at hp
  | [s], ts => by
    intro h
    exact absurd h (by simp [processPairs])
  | s :: e :: rest, ts => by
    intro h p hp
    rw [processPairs.eq_3] at h
    by_cases hse : s = [] ∨ e = []
    · rw [if_pos hse] at h
      exact absurd h (by simp)
    · rw [if_neg hse] at h
      dsimp only at h
      cases ha : convert_to_24h
          (fix_irregular_time_format (infer_missing_am_pm s e).1) with
      | some a =>
        cases hb : convert_to_24h
            (fix_irregular_time_format (infer_missing_am_pm s e).2) with
        | some b =>
          rw [ha, hb] at h
          obtain ⟨ts0, hts0, hcons⟩ := Option.map_eq_some'.mp h
          subst hcons
          rcases List.mem_cons.mp hp with hp | hp
          · exact ⟨a, b, hp, ⟨_, ha⟩, ⟨_, hb⟩⟩
          · exact processPairs_mem rest ts0 hts0 p hp
        | none =>
          rw [ha, hb] at h
          exact processPairs_mem rest ts h p hp
      | none =>
        cases hb : convert_to_24h
            (fix_irregular_time_format (infer_missing_am_pm s e).2) with
        | some b =>
          rw [ha, hb] at h
          exact processPairs_mem rest ts h p hp
        | none =>
          rw [ha, hb] at h
          exact processPairs_mem rest ts h p hp

/-- Claim C9: for every `None`-or-string input, the returned list is
non-empty and every element is a two-element list of zero-padded `HH:MM`
strings with hour below 24 and minute below 60. -/
theorem cleanse_output_wellformed (inp : Option String) :
    cleanse_time_range inp ≠ [] ∧
      ∀ p ∈ cleanse_time_range inp, ∃ a b : String, p = [a, b] ∧
        validHHMM a = true ∧ validHHMM b = true := by
  have hsent : ∀ p ∈ [["00:00", "00:00"]], ∃ a b : String, p = [a, b] ∧
      validHHMM a = true ∧ validHHMM b = true := by
    intro p hp
    simp only [List.mem_singleton] at hp
    exact ⟨"00:00", "00:00", hp, by decide, by decide⟩
  have h24 : ∀ p ∈ [["00:00", "23:59"]], ∃ a b : String, p = [a, b] ∧
      validHHMM a = true ∧ validHHMM b = true := by
    intro p hp
    simp only [List.mem_singleton] at hp
    exact ⟨"00:00", "23:59", hp, by decide, by decide⟩
  cases inp with
  | none => exact ⟨by simp [cleanse_time_range], by
      simpa [cleanse_time_range] using hsent⟩
  | some s =>
    rw [cleanse_time_range]
    by_cases h0 : pyStrip s.data = []
    · rw [if_pos h0]
      exact ⟨by simp, hsent⟩
    · rw [if_neg h0]
      dsimp only
      by_cases h1 : containsSub (pyLower (pyStrip s.data)) "24 hours".data
      · rw [if_pos h1]
        exact ⟨by simp, h24⟩
      · rw [if_neg h1]
        by_cases h2 : containsSub (pyLower (pyStrip s.data)) "closed".data
        · rw [if_pos h2]
          exact ⟨by simp, hsent⟩
        · rw [if_neg h2]
          cases hpp : processPairs
              (splitDash (normalizeRange (pyLower (pyStrip s.data)))) with
          | none => exact ⟨by simp, hsent⟩
          | some ts =>
            cases ts with
            | nil => exact ⟨by simp, hsent⟩
            | cons q ts0 =>
              refine ⟨by simp, ?_⟩
              intro p hp
              rw [List.mem_map] at hp
              obtain ⟨q0, hq0, hpq⟩ := hp
              obtain ⟨a, b, hab, ⟨u, hu⟩, ⟨v, hv⟩⟩ :=
                processPairs_mem _ _ hpp q0 hq0
              subst hpq
              subst hab
              exact ⟨String.mk a, String.mk b, rfl,
                convert_valid hu, convert_valid hv⟩

/-- The explicit-exception variant of `convert_to_24h` catches exactly the
`ValueError` its `strptime` calls can raise, so it always returns normally,
with the same value as the plain embedding. -/
theorem pyPure_eq (a : α) : (pure a : Except PyErr α) = Except.ok a := rfl

theorem convert_to_24hE_eq (t : Str) :
    convert_to_24hE t = Except.ok (convert_to_24h t) := by
  unfold convert_to_24hE convert_body convert_to_24h
  dsimp only
  by_cases hm : hasMer (t.map fun c => if c = '.' then ':' else c) = true
  · by_cases hcl :
        (t.map fun c => if c = '.' then ':' else c).contains ':' = true
    · cases hp : parseIMp (t.map fun c => if c = '.' then ':' else c) with
      | some v =>
        simp only [hm, hcl, hp, strptimeE, ok_bind, error_bind, pyPure_eq,
          ite_true, Bool.false_eq_true, if_false, Option.map_some']
      | none =>
        simp only [hm, hcl, hp, strptimeE, ok_bind, error_bind, pyPure_eq,
          ite_true, Bool.false_eq_true, if_false, Option.map_none']
    · cases hp : parseIp (t.map fun c => if c = '.' then ':' else c) with
      | some v =>
        simp only [hm, hcl, hp, strptimeE, ok_bind, error_bind, pyPure_eq,
          ite_true, Bool.false_eq_true, if_false, ite_false, Bool.false_eq_true, if_false, Option.map_some']
      | none =>
        simp only [hm, hcl, hp, strptimeE, ok_bind, error_bind, pyPure_eq,
          ite_true, Bool.false_eq_true, if_false, ite_false, Bool.false_eq_true, if_false, Option.map_none']
  · cases hp : parseHM (t.map fun c => if c = '.' then ':' else c) with
    | some v =>
      simp only [hm, hp, strptimeE, ok_bind, error_bind, pyPure_eq,
        ite_false, Bool.false_eq_true, if_false, Option.map_some']
    | none =>
      simp only [hm, hp, strptimeE, ok_bind, error_bind, pyPure_eq,
        ite_false, Bool.false_eq_true, if_false, Option.map_none']

/-- The indexed loop past the end of the token list: `times` or fallback. -/
theorem runLoopE_stop (toks : List Str) (i : Nat) (acc : List (List Str))
    (hge : toks.length ≤ i) :
    runLoopE toks i acc =
      match processPairs (toks.drop i) with
      | none => [[s00, s00]]
      | some ts => if acc ++ ts = [] then [[s00, s00]] else acc ++ ts := by
  rw [runLoopE, dif_neg (by omega)]
  rw [List.drop_eq_nil_of_le hge, processPairs]
  by_cases ha : acc = []
  · simp [ha]
  · simp [ha, List.isEmpty_iff]

/-- The indexed loop with fallible indexing and its per-iteration handler
computes the same result as the structural pairing recursion, relative to
the accumulated pair list. -/
theorem runLoopE_eq (toks : List Str) :
    ∀ (n i : Nat) (acc : List (List Str)), toks.length - i ≤ n →
      runLoopE toks i acc =
        match processPairs (toks.drop i) with
        | none => [[s00, s00]]
        | some ts => if acc ++ ts = [] then [[s00, s00]] else acc ++ ts := by
  intro n
  induction n with
  | zero =>
    intro i acc hn
    exact runLoopE_stop toks i acc (by omega)
  | succ n ih =>
    intro i acc hn
    by_cases hi : i < toks.length
    · have hs : pyGetE toks i = Except.ok toks[i] := by
        unfold pyGetE
        rw [List.get?_eq_getElem?, List.getElem?_eq_getElem hi]
      have hdrop := List.drop_eq_getElem_cons (l := toks) (n := i) hi
      rw [runLoopE, dif_pos hi]
      by_cases hi2 : i + 1 < toks.length
      · have he : pyGetE toks (i + 1) = Except.ok toks[i + 1] := by
          unfold pyGetE
          rw [List.get?_eq_getElem?, List.getElem?_eq_getElem hi2]
        have hdrop2 := List.drop_eq_getElem_cons (l := toks) (n := i + 1) hi2
        rw [hdrop, hdrop2, processPairs.eq_3]
        unfold loopIterE
        rw [hs, ok_bind, if_pos hi2, he, ok_bind]
        by_cases hse : toks[i] = [] ∨ toks[i + 1] = []
        · have hse2 : (toks[i].isEmpty ∨ toks[i + 1].isEmpty) := by
            simpa [List.isEmpty_iff] using hse
          rw [if_pos hse2, if_pos hse]
          rfl
        · have hse2 : ¬(toks[i].isEmpty ∨ toks[i + 1].isEmpty) := by
            simpa [List.isEmpty_iff] using hse
          rw [if_neg hse2, if_neg hse]
          dsimp only
          rw [convert_to_24hE_eq, ok_bind, convert_to_24hE_eq, ok_bind]
          cases hc1 : convert_to_24h (fix_irregular_time_format
              (infer_missing_am_pm toks[i] toks[i + 1]).1) with
          | some a =>
            cases hc2 : convert_to_24h (fix_irregular_time_format
                (infer_missing_am_pm toks[i] toks[i + 1]).2) with
            | some b =>
              show runLoopE toks (i + 2) (acc ++ [[a, b]]) = _
              rw [ih (i + 2) (acc ++ [[a, b]]) (by omega)]
              cases hpp : processPairs (toks.drop (i + 2)) with
              | none => rfl
              | some ts => simp
            | none =>
              show runLoopE toks (i + 2) acc = _
              exact ih (i + 2) acc (by omega)
          | none =>
            cases hc2 : convert_to_24h (fix_irregular_time_format
                (infer_missing_am_pm toks[i] toks[i + 1]).2) with
            | some b =>
              show runLoopE toks (i + 2) acc = _
              exact ih (i + 2) acc (by omega)
            | none =>
              show runLoopE toks (i + 2) acc = _
              exact ih (i + 2) acc (by omega)
      · have hnil : toks.drop (i + 1) = [] :=
          List.drop_eq_nil_of_le (by omega)
        rw [hdrop, hnil]
        unfold loopIterE
        rw [hs, ok_bind, if_neg hi2]
        rfl
    · exact runLoopE_stop toks i acc (by omega)

/-- Claim C5: with every raising operation (`strptime`, list indexing) made
explicit and the source's two handlers in place, `cleanse_time_range` always
returns normally — no exception escapes to the caller — and with the value
of the plain embedding. -/
theorem cleanseE_never_raises (inp : Option String) :
    cleanse_time_rangeE inp = Except.ok (cleanse_time_range inp) := by
  cases inp with
  | none => rfl
  | some s =>
    rw [cleanse_time_rangeE, cleanse_time_range]
    by_cases h0 : pyStrip s.data = []
    · rw [if_pos h0, if_pos h0]
    · rw [if_neg h0, if_neg h0]
      dsimp only
      by_cases h1 : containsSub (pyLower (pyStrip s.data)) "24 hours".data
      · rw [if_pos h1, if_pos h1]
      · rw [if_neg h1, if_neg h1]
        by_cases h2 : containsSub (pyLower (pyStrip s.data)) "closed".data
        · rw [if_pos h2, if_pos h2]
        · rw [if_neg h2, if_neg h2]
          rw [runLoopE_eq _
            (splitDash (normalizeRange (pyLower (pyStrip s.data)))).length 0 []
            (by omega)]
          rw [List.drop_zero]
          cases hpp : processPairs
              (splitDash (normalizeRange (pyLower (pyStrip s.data)))) with
          | none => rfl
          | some ts =>
            cases ts with
            | nil => rfl
            | cons q r => simp

/-- Claim C10: `convert_to_24h` uses standard clock semantics for twelve:
`12am` maps to `00:00`, `12pm` to `12:00`, and the genuine range
`"12am-12am"` parses to a pair equal to the closed sentinel. -/
theorem convert_twelve_oclock :
    convert24 "12am" = some "00:00" ∧ convert24 "12pm" = some "12:00" ∧
    cleanse_time_range (some "12am-12am") = [["00:00", "00:00"]] :=
  ⟨by decide, by decide, by decide⟩

/-! ## Idempotence on canonical input (C7) -/

theorem plain_toNat {c : Char} (h : plainChar c) :
    c.toNat = 45 ∨ c.toNat = 58 ∨ (48 ≤ c.toNat ∧ c.toNat ≤ 57) := by
  rcases h with h | rfl | rfl
  · simp only [isDig, decide_eq_true_iff] at h
    right; right; exact h
  · right; left; rfl
  · left; rfl

theorem plain_not_pySpace {c : Char} (h : plainChar c) : isPySpace c = false := by
  have ht := plain_toNat h
  simp only [isPySpace, decide_eq_false_iff_not]
  omega

theorem plain_not_exotic {c : Char} (h : plainChar c) :
    isExoticDash c = false := by
  have ht := plain_toNat h
  simp only [isExoticDash, decide_eq_false_iff_not]
  rintro (rfl | rfl | rfl | rfl | rfl) <;> exact absurd ht (by decide)

theorem plain_lower {c : Char} (h : plainChar c) : asciiLower c = c := by
  have ht := plain_toNat h
  rw [asciiLower, if_neg (by omega)]

theorem plain_ne {c : Char} (h : plainChar c) (d : Char)
    (hd : d.toNat ≤ 44 ∨ d.toNat = 46 ∨ d.toNat = 47 ∨ 59 ≤ d.toNat) :
    ¬c = d := by
  have ht := plain_toNat h
  intro he
  rw [he] at ht
  omega

theorem plain_not_preChar {c : Char} (h : isDig c = true) :
    isPreChar c = false := by
  simp only [isDig, decide_eq_true_iff] at h
  simp only [isPreChar, Bool.or_eq_false_iff, decide_eq_false_iff_not]
  omega

theorem isDig_ne_dash {c : Char} (h : isDig c = true) : ¬c = '-' := by
  simp only [isDig, decide_eq_true_iff] at h
  intro he
  rw [he] at h
  exact absurd h (by decide)

theorem isDig_ne_colon {c : Char} (h : isDig c = true) : ¬c = ':' := by
  simp only [isDig, decide_eq_true_iff] at h
  intro he
  rw [he] at h
  exact absurd h (by decide)

theorem mapSelf {f : Char → Char} :
    ∀ {l : Str}, (∀ c ∈ l, f c = c) → l.map f = l := by
  intro l
  induction l with
  | nil => intro _; rfl
  | cons c r ih =>
    intro h
    rw [List.map_cons, h c (by simp), ih fun d hd => h d (by simp [hd])]

theorem filterSelf {f : Char → Bool} :
    ∀ {l : Str}, (∀ c ∈ l, f c = true) → l.filter f = l := by
  intro l
  induction l with
  | nil => intro _; rfl
  | cons c r ih =>
    intro h
    rw [List.filter_cons, if_pos (h c (by simp)),
      ih fun d hd => h d (by simp [hd])]

theorem dropWhile_plain {l : Str} (h : ∀ c ∈ l, plainChar c) :
    l.dropWhile isPySpace = l := by
  cases l with
  | nil => rfl
  | cons c r =>
    rw [List.dropWhile_cons, if_neg]
    rw [plain_not_pySpace (h c (by simp))]
    simp

theorem pyStrip_plain {l : Str} (h : ∀ c ∈ l, plainChar c) :
    pyStrip l = l := by
  unfold pyStrip
  rw [dropWhile_plain h, dropWhile_plain, List.reverse_reverse]
  intro c hc
  exact h c (List.mem_reverse.mp hc)

theorem startsWith_mem :
    ∀ {l pat : Str}, startsWith l pat = true → ∀ c ∈ pat, c ∈ l := by
  intro l
  induction l with
  | nil =>
    intro pat h c hc
    cases pat with
    | nil => simp at hc
    | cons p q => simp [startsWith] at h
  | cons a r ih =>
    intro pat h c hc
    cases pat with
    | nil => simp at hc
    | cons p q =>
      rw [startsWith, Bool.and_eq_true, decide_eq_true_iff] at h
      rcases List.mem_cons.mp hc with rfl | hc2
      · simp [h.1]
      · exact List.mem_cons_of_mem a (ih h.2 c hc2)

theorem containsSub_mem :
    ∀ {l pat : Str}, containsSub l pat = true → ∀ c ∈ pat, c ∈ l := by
  intro l
  induction l with
  | nil =>
    intro pat h c hc
    rw [containsSub] at h
    simp only [Bool.or_eq_true] at h
    rcases h with h | h
    · exact startsWith_mem h c hc
    · simp at h
  | cons a r ih =>
    intro pat h c hc
    rw [containsSub] at h
    simp only [Bool.or_eq_true] at h
    rcases h with h | h
    · exact startsWith_mem h c hc
    · exact List.mem_cons_of_mem a (ih h c hc)

theorem containsSub_false_plain {l pat : Str} (hp : ∀ c ∈ l, plainChar c)
    (c0 : Char) (hc0 : c0 ∈ pat) (hno : ¬plainChar c0) :
    containsSub l pat = false := by
  cases hcs : containsSub l pat with
  | false => rfl
  | true => exact absurd (hp c0 (containsSub_mem hcs c0 hc0)) hno

theorem hasMer_plain {l : Str} (hp : ∀ c ∈ l, plainChar c) :
    hasMer l = false := by
  have ha : ¬plainChar 'a' := by
    rintro (h | h | h) <;> exact absurd h (by decide)
  have hb : ¬plainChar 'p' := by
    rintro (h | h | h) <;> exact absurd h (by decide)
  unfold hasMer
  rw [containsSub_false_plain hp 'a' (by simp) ha,
    containsSub_false_plain hp 'p' (by simp) hb]
  rfl

theorem firstSome_none {l : List α} {f : α → Option β}
    (h : ∀ a ∈ l, f a = none) : firstSome l f = none := by
  induction l with
  | nil => rfl
  | cons a r ih =>
    rw [firstSome, h a (by simp)]
    exact ih fun x hx => h x (by simp [hx])

theorem scanWith_id_of_none (try? : Str → Option (Str × Str))
    (P : Char → Prop) (hnone : ∀ l, (∀ c ∈ l, P c) → try? l = none) :
    ∀ (fuel : Nat) (l : Str), (∀ c ∈ l, P c) → scanWith try? fuel l = l := by
  intro fuel
  induction fuel with
  | zero =>
    intro l _
    cases l <;> rfl
  | succ n ih =>
    intro l hl
    cases l with
    | nil => rfl
    | cons c rest =>
      rw [scanWith, hnone (c :: rest) hl]
      rw [ih rest fun d hd => hl d (by simp [hd])]

theorem not_plain {c : Char}
    (h : c.toNat ≤ 44 ∨ c.toNat = 46 ∨ c.toNat = 47 ∨ 59 ≤ c.toNat) :
    ¬plainChar c := by
  intro hp
  rcases plain_toNat hp with h2 | h2 | h2 <;> omega

theorem nb_left {a b : Char} (h : isDig a = true) : ¬(a = '-' ∧ b = '-') :=
  fun he => isDig_ne_dash h he.1

theorem nb_right {a b : Char} (h : isDig b = true) : ¬(a = '-' ∧ b = '-') :=
  fun he => isDig_ne_dash h he.2

theorem tryMerDots_none {mer : Char} (hm : mer = 'a' ∨ mer = 'p') :
    ∀ l, (∀ c ∈ l, plainChar c) → tryMerDots mer l = none := by
  intro l hp
  cases l with
  | nil => rfl
  | cons c r =>
    have hc := hp c (by simp)
    simp only [tryMerDots]
    rcases hm with rfl | rfl <;> rw [if_neg (plain_ne hc _ (by decide))]

theorem afterWsMer_none {mer : Char} (hm : mer = 'a' ∨ mer = 'p')
    (l : Str) (hp : ∀ c ∈ l, plainChar c) : afterWsMer mer l = none := by
  unfold afterWsMer
  rw [dropWhile_plain hp]
  cases l with
  | nil => rfl
  | cons c r =>
    have hc := hp c (by simp)
    rcases hm with rfl | rfl <;> dsimp only <;>
      rw [if_neg (plain_ne hc _ (by decide))]

theorem tryDigitMer_none {mer : Char} (hm : mer = 'a' ∨ mer = 'p') :
    ∀ l, (∀ c ∈ l, plainChar c) → tryDigitMer mer l = none := by
  intro l hp
  cases l with
  | nil => rfl
  | cons d1 rest =>
    simp only [tryDigitMer]
    cases rest with
    | nil => split <;> rfl
    | cons d2 rest2 =>
      dsimp only
      rw [afterWsMer_none hm rest2 fun c hc => hp c (by simp [hc]),
        afterWsMer_none hm (d2 :: rest2) fun c hc => hp c (by simp [hc])]
      split
      · split <;> rfl
      · rfl

theorem scanDigitMer_id {mer : Char} (hm : mer = 'a' ∨ mer = 'p') :
    ∀ (fuel : Nat) (prev : Option Char) (l : Str),
      (∀ c ∈ l, plainChar c) → scanDigitMer mer fuel prev l = l := by
  intro fuel
  induction fuel with
  | zero => intro prev l _; cases l <;> rfl
  | succ n ih =>
    intro prev l hl
    cases l with
    | nil => rfl
    | cons c rest =>
      have hrest : ∀ d ∈ rest, plainChar d :=
        fun d hd => hl d (List.mem_cons_of_mem c hd)
      simp only [scanDigitMer, tryDigitMer_none hm (c :: rest) hl]
      split <;> rw [ih (some c) rest hrest]

theorem tryTo_none (l : Str) (hp : ∀ c ∈ l, plainChar c) :
    tryTo l = none := by
  cases l with
  | nil => rfl
  | cons c r =>
    cases r with
    | nil => rfl
    | cons d r2 =>
      simp only [tryTo]
      rw [if_neg]
      exact fun he => plain_ne (hp c (by simp)) _ (by decide) he.1

theorem matchMerGrp_nil (l : Str) (hp : ∀ c ∈ l, plainChar c) :
    matchMerGrp l = [] := by
  cases l with
  | nil => rfl
  | cons c r =>
    cases r with
    | nil => rfl
    | cons d r2 =>
      simp only [matchMerGrp]
      rw [if_neg]
      rintro ⟨h1 | h1, -⟩
      · exact plain_ne (hp c (by simp)) _ (by decide) h1
      · exact plain_ne (hp c (by simp)) _ (by decide) h1

theorem matchD12_rest {l : Str} {g : Str × Str} (h : g ∈ matchD12 l) :
    ∀ c ∈ g.2, c ∈ l := by
  rcases l with _ | ⟨a, _ | ⟨b, r⟩⟩
  · simp [matchD12] at h
  · simp only [matchD12] at h
    obtain ⟨-, he⟩ := mem_guard h
    intro c hc
    rw [he] at hc
    simp at hc
  · simp only [matchD12, List.mem_append] at h
    rcases h with h | h <;> obtain ⟨-, he⟩ := mem_guard h <;>
      intro c hc <;> rw [he] at hc <;> simp at hc <;> simp [hc]

theorem tryGlue1_none (l : Str) (hp : ∀ c ∈ l, plainChar c) :
    tryGlue1 l = none := by
  unfold tryGlue1
  apply firstSome_none
  intro g1 hg1
  have hsub := matchD12_rest hg1
  cases hx : g1.2 with
  | nil => rfl
  | cons x t1 =>
    cases t1 with
    | nil => rfl
    | cons a t2 =>
      cases t2 with
      | nil => rfl
      | cons b r2 =>
        dsimp only
        split
        · rw [matchMerGrp_nil r2 fun c hc => hp c (hsub c (by simp [hx, hc]))]
          rfl
        · rfl

theorem tryGlue2_none (l : Str) (hp : ∀ c ∈ l, plainChar c) :
    tryGlue2 l = none := by
  cases l with
  | nil => rfl
  | cons a r0 =>
    cases r0 with
    | nil => rfl
    | cons b r1 =>
      simp only [tryGlue2]
      split
      · rw [matchMerGrp_nil r1 fun c hc => hp c (by simp [hc])]
        rfl
      · rfl

theorem scanWith_dash_id :
    ∀ (fuel : Nat) (l : Str), noDD l → scanWith tryDashRun fuel l = l := by
  intro fuel
  induction fuel with
  | zero => intro l _; cases l <;> rfl
  | succ n ih =>
    intro l hl
    cases l with
    | nil => rfl
    | cons c rest =>
      have hnone : tryDashRun (c :: rest) = none := by
        cases rest with
        | nil => rfl
        | cons d r =>
          simp only [tryDashRun]
          rw [if_neg hl.1]
      rw [scanWith, hnone]
      show c :: scanWith tryDashRun n rest = c :: rest
      cases rest with
      | nil => rw [ih [] True.intro]
      | cons d r => rw [ih (d :: r) hl.2]

theorem stripDayPre_digit {c : Char} (hc : isDig c = true) (r : Str) :
    stripDayPre (c :: r) = c :: r := by
  have h0 : dropPreK 0 (c :: r) = none := by
    simp only [dropPreK]
    rw [if_neg (isDig_ne_colon hc)]
  have hk : ∀ k, dropPreK (k + 1) (c :: r) = none := by
    intro k
    simp only [dropPreK]
    rw [plain_not_preChar hc]
    simp
  have h4 : dropPreK 4 (c :: r) = none := hk 3
  have h3 : dropPreK 3 (c :: r) = none := hk 2
  have h2 : dropPreK 2 (c :: r) = none := hk 1
  have h1 : dropPreK 1 (c :: r) = none := hk 0
  rw [stripDayPre, h4, h3, h2, h1, h0]

theorem splitDash_no_dash :
    ∀ {t : Str}, (∀ c ∈ t, ¬c = '-') → splitDash t = [t] := by
  intro t
  induction t with
  | nil => intro _; rfl
  | cons c r ih =>
    intro h
    rw [splitDash, if_neg (h c (by simp)), ih fun d hd => h d (by simp [hd])]

theorem splitDash_append (t2 : Str) (h2 : ∀ c ∈ t2, ¬c = '-') :
    ∀ t1 : Str, (∀ c ∈ t1, ¬c = '-') →
      splitDash (t1 ++ '-' :: t2) = [t1, t2] := by
  intro t1
  induction t1 with
  | nil =>
    intro _
    rw [List.nil_append, splitDash, if_pos rfl, splitDash_no_dash h2]
  | cons c r ih =>
    intro h1
    rw [List.cons_append, splitDash, if_neg (h1 c (by simp)),
      ih fun d hd => h1 d (by simp [hd])]

theorem dVal_digitChar {n : Nat} (h : n < 10) : dVal (digitChar n) = n := by
  unfold dVal
  rw [digitChar_toNat h]
  omega

theorem fmtHM_plain {h m : Nat} (hh : h < 24) (hm : m < 60) :
    ∀ c ∈ fmtHM h m, plainChar c := by
  intro c hc
  simp only [fmtHM, pad2, List.mem_append, List.mem_cons, List.not_mem_nil,
    or_false] at hc
  rcases hc with (rfl | rfl) | rfl | rfl | rfl
  · exact Or.inl (isDig_digitChar (by omega))
  · exact Or.inl (isDig_digitChar (by omega))
  · exact Or.inr (Or.inl rfl)
  · exact Or.inl (isDig_digitChar (by omega))
  · exact Or.inl (isDig_digitChar (by omega))

theorem fmtHM_ne_dash {h m : Nat} (hh : h < 24) (hm : m < 60) :
    ∀ c ∈ fmtHM h m, ¬c = '-' := by
  intro c hc
  simp only [fmtHM, pad2, List.mem_append, List.mem_cons, List.not_mem_nil,
    or_false] at hc
  rcases hc with (rfl | rfl) | rfl | rfl | rfl
  · exact isDig_ne_dash (isDig_digitChar (by omega))
  · exact isDig_ne_dash (isDig_digitChar (by omega))
  · decide
  · exact isDig_ne_dash (isDig_digitChar (by omega))
  · exact isDig_ne_dash (isDig_digitChar (by omega))

theorem fmtHM_ne_nil {h m : Nat} : ¬fmtHM h m = [] := by
  show ¬(digitChar (h / 10) :: _) = []
  simp

theorem firstSome_matchM_pad2 {M : Nat} (hm : M < 60) (v : Nat) :
    firstSome (matchM (pad2 M))
      (fun mc => if mc.2 = ([] : Str) then some (v, mc.1) else none) =
      some (v, M) := by
  have hd3 : (digitChar (M / 10)).toNat = 48 + M / 10 :=
    digitChar_toNat (by omega)
  have hd4 : isDig (digitChar (M % 10)) = true := isDig_digitChar (by omega)
  show firstSome (matchM [digitChar (M / 10), digitChar (M % 10)]) _ = _
  simp only [matchM]
  rw [if_pos ⟨by omega, by omega, hd4⟩,
    if_pos (isDig_digitChar (show M / 10 < 10 by omega))]
  rw [List.singleton_append, firstSome]
  dsimp only
  rw [if_pos rfl, dVal_digitChar (show M / 10 < 10 by omega),
    dVal_digitChar (show M % 10 < 10 by omega)]
  have hv : M / 10 * 10 + M % 10 = M := by omega
  rw [hv]

theorem parseHM_canonical {H M : Nat} (hh : H < 24) (hm : M < 60) :
    parseHM (fmtHM H M) = some (H, M) := by
  have e1 := digitChar_toNat (show H / 10 < 10 by omega)
  have e2 := digitChar_toNat (show H % 10 < 10 by omega)
  show parseHM (digitChar (H / 10) :: digitChar (H % 10) :: ':' :: pad2 M) =
    some (H, M)
  unfold parseHM
  by_cases h20 : 20 ≤ H
  · have hmH : matchH
        (digitChar (H / 10) :: digitChar (H % 10) :: ':' :: pad2 M) =
        [(20 + dVal (digitChar (H % 10)), ':' :: pad2 M),
         (dVal (digitChar (H / 10)),
           digitChar (H % 10) :: ':' :: pad2 M)] := by
      simp only [matchH]
      rw [if_pos ⟨by omega, by omega, by omega⟩,
        if_neg (by rintro ⟨h48 | h49, -⟩ <;> omega),
        if_pos (isDig_digitChar (show H / 10 < 10 by omega))]
      rfl
    rw [hmH, firstSome]
    dsimp only
    rw [if_pos rfl, firstSome_matchM_pad2 hm]
    dsimp only
    rw [dVal_digitChar (show H % 10 < 10 by omega)]
    have hv : 20 + H % 10 = H := by omega
    rw [hv]
  · have hmH : matchH
        (digitChar (H / 10) :: digitChar (H % 10) :: ':' :: pad2 M) =
        [(dVal (digitChar (H / 10)) * 10 + dVal (digitChar (H % 10)),
           ':' :: pad2 M),
         (dVal (digitChar (H / 10)),
           digitChar (H % 10) :: ':' :: pad2 M)] := by
      simp only [matchH]
      rw [if_neg (by rintro ⟨h50, -⟩; omega),
        if_pos ⟨by omega, isDig_digitChar (show H % 10 < 10 by omega)⟩,
        if_pos (isDig_digitChar (show H / 10 < 10 by omega))]
      rfl
    rw [hmH, firstSome]
    dsimp only
    rw [if_pos rfl, firstSome_matchM_pad2 hm]
    dsimp only
    rw [dVal_digitChar (show H / 10 < 10 by omega),
      dVal_digitChar (show H % 10 < 10 by omega)]
    have hv : H / 10 * 10 + H % 10 = H := by omega
    rw [hv]

theorem convert_canonical {H M : Nat} (hh : H < 24) (hm : M < 60) :
    convert_to_24h (fmtHM H M) = some (fmtHM H M) := by
  have hmap : (fmtHM H M).map (fun c => if c = '.' then ':' else c) =
      fmtHM H M :=
    mapSelf fun c hc => by
      rw [if_neg (plain_ne (fmtHM_plain hh hm c hc) _ (by decide))]
  unfold convert_to_24h
  dsimp only
  rw [hmap, hasMer_plain (fmtHM_plain hh hm)]
  simp only [Bool.false_eq_true, if_false]
  rw [parseHM_canonical hh hm]
  rfl

theorem infer_canonical {H1 M1 H2 M2 : Nat} (h1 : H1 < 24) (m1 : M1 < 60)
    (h2 : H2 < 24) (m2 : M2 < 60) :
    infer_missing_am_pm (fmtHM H1 M1) (fmtHM H2 M2) =
      (fmtHM H1 M1, fmtHM H2 M2) := by
  unfold infer_missing_am_pm
  dsimp only
  rw [pyStrip_plain (fmtHM_plain h1 m1), pyStrip_plain (fmtHM_plain h2 m2),
    hasMer_plain (fmtHM_plain h1 m1), hasMer_plain (fmtHM_plain h2 m2)]
  simp

theorem fix_irregular_colon (a b c d : Char) :
    fix_irregular_time_format [a, b, ':', c, d] = [a, b, ':', c, d] := by
  simp only [fix_irregular_time_format]
  rw [if_neg]
  rintro ⟨-, -, h3, -⟩
  exact absurd h3 (by decide)

theorem normalizeRange_canonical {H1 M1 H2 M2 : Nat}
    (h1 : H1 < 24) (m1 : M1 < 60) (h2 : H2 < 24) (m2 : M2 < 60) :
    normalizeRange (fmtHM H1 M1 ++ '-' :: fmtHM H2 M2) =
      fmtHM H1 M1 ++ '-' :: fmtHM H2 M2 := by
  have hp : ∀ c ∈ fmtHM H1 M1 ++ '-' :: fmtHM H2 M2, plainChar c := by
    intro c hc
    rcases List.mem_append.mp hc with h | h
    · exact fmtHM_plain h1 m1 c h
    · rcases List.mem_cons.mp h with rfl | h
      · exact Or.inr (Or.inr rfl)
      · exact fmtHM_plain h2 m2 c h
  have hDD : noDD (fmtHM H1 M1 ++ '-' :: fmtHM H2 M2) := by
    show noDD (digitChar (H1 / 10) :: digitChar (H1 % 10) :: ':' ::
      digitChar (M1 / 10) :: digitChar (M1 % 10) :: '-' ::
      digitChar (H2 / 10) :: digitChar (H2 % 10) :: ':' ::
      digitChar (M2 / 10) :: [digitChar (M2 % 10)])
    exact ⟨nb_left (isDig_digitChar (by omega)),
      nb_left (isDig_digitChar (by omega)),
      nb_right (isDig_digitChar (by omega)),
      nb_left (isDig_digitChar (by omega)),
      nb_left (isDig_digitChar (by omega)),
      nb_right (isDig_digitChar (by omega)),
      nb_left (isDig_digitChar (by omega)),
      nb_left (isDig_digitChar (by omega)),
      nb_right (isDig_digitChar (by omega)),
      nb_left (isDig_digitChar (by omega)), True.intro⟩
  have hq1 : (fmtHM H1 M1 ++ '-' :: fmtHM H2 M2).filter
      (fun c => !(c = '\u202F')) = fmtHM H1 M1 ++ '-' :: fmtHM H2 M2 :=
    filterSelf fun c hc => by
      have hd : ¬c = '\u202F' := plain_ne (hp c hc) '\u202F' (by decide)
      simp [hd]
  have hq2 : (fmtHM H1 M1 ++ '-' :: fmtHM H2 M2).filter
      (fun c => !(c = ' ')) = fmtHM H1 M1 ++ '-' :: fmtHM H2 M2 :=
    filterSelf fun c hc => by
      have hd : ¬c = ' ' := plain_ne (hp c hc) ' ' (by decide)
      simp [hd]
  have hq3 : stripDayPre (fmtHM H1 M1 ++ '-' :: fmtHM H2 M2) =
      fmtHM H1 M1 ++ '-' :: fmtHM H2 M2 :=
    stripDayPre_digit (isDig_digitChar (by omega)) _
  have hq4 : ∀ fuel, scanWith (tryMerDots 'a') fuel
      (fmtHM H1 M1 ++ '-' :: fmtHM H2 M2) =
      fmtHM H1 M1 ++ '-' :: fmtHM H2 M2 :=
    fun fuel => scanWith_id_of_none _ plainChar
      (fun l hl => tryMerDots_none (Or.inl rfl) l hl) fuel _ hp
  have hq5 : ∀ fuel, scanWith (tryMerDots 'p') fuel
      (fmtHM H1 M1 ++ '-' :: fmtHM H2 M2) =
      fmtHM H1 M1 ++ '-' :: fmtHM H2 M2 :=
    fun fuel => scanWith_id_of_none _ plainChar
      (fun l hl => tryMerDots_none (Or.inr rfl) l hl) fuel _ hp
  have hq6 : ∀ fuel, scanDigitMer 'a' fuel none
      (fmtHM H1 M1 ++ '-' :: fmtHM H2 M2) =
      fmtHM H1 M1 ++ '-' :: fmtHM H2 M2 :=
    fun fuel => scanDigitMer_id (Or.inl rfl) fuel none _ hp
  have hq7 : ∀ fuel, scanDigitMer 'p' fuel none
      (fmtHM H1 M1 ++ '-' :: fmtHM H2 M2) =
      fmtHM H1 M1 ++ '-' :: fmtHM H2 M2 :=
    fun fuel => scanDigitMer_id (Or.inr rfl) fuel none _ hp
  have hq8 : normalize_dashes (fmtHM H1 M1 ++ '-' :: fmtHM H2 M2) =
      fmtHM H1 M1 ++ '-' :: fmtHM H2 M2 :=
    mapSelf fun c hc => by simp [plain_not_exotic (hp c hc)]
  have hq9 : ∀ fuel, scanWith tryTo fuel
      (fmtHM H1 M1 ++ '-' :: fmtHM H2 M2) =
      fmtHM H1 M1 ++ '-' :: fmtHM H2 M2 :=
    fun fuel => scanWith_id_of_none _ plainChar tryTo_none fuel _ hp
  have hq10 : ∀ fuel, scanWith tryGlue1 fuel
      (fmtHM H1 M1 ++ '-' :: fmtHM H2 M2) =
      fmtHM H1 M1 ++ '-' :: fmtHM H2 M2 :=
    fun fuel => scanWith_id_of_none _ plainChar tryGlue1_none fuel _ hp
  have hq11 : (fmtHM H1 M1 ++ '-' :: fmtHM H2 M2).map
      (fun c => if c = '\n' ∨ c = ',' ∨ c = ';' then '-' else c) =
      fmtHM H1 M1 ++ '-' :: fmtHM H2 M2 :=
    mapSelf fun c hc => by
      rw [if_neg]
      rintro (rfl | rfl | rfl)
      · exact absurd (hp _ hc) (not_plain (by decide))
      · exact absurd (hp _ hc) (not_plain (by decide))
      · exact absurd (hp _ hc) (not_plain (by decide))
  have hq12 : ∀ fuel, scanWith tryDashRun fuel
      (fmtHM H1 M1 ++ '-' :: fmtHM H2 M2) =
      fmtHM H1 M1 ++ '-' :: fmtHM H2 M2 :=
    fun fuel => scanWith_dash_id fuel _ hDD
  have hq13 : ∀ fuel, scanWith tryGlue2 fuel
      (fmtHM H1 M1 ++ '-' :: fmtHM H2 M2) =
      fmtHM H1 M1 ++ '-' :: fmtHM H2 M2 :=
    fun fuel => scanWith_id_of_none _ plainChar tryGlue2_none fuel _ hp
  unfold normalizeRange
  dsimp only
  rw [hq1, hq2, hq3, hq4, hq5, hq6, hq7, hq8, hq9, hq10, hq11, hq12, hq13]

/-- Claim C7: feeding an already-canonical zero-padded `HH:MM-HH:MM` range
(hours below 24, minutes below 60) through the pipeline reproduces exactly
the same pair. -/
theorem cleanse_idempotent_canonical (H1 M1 H2 M2 : Nat)
    (h1 : H1 < 24) (m1 : M1 < 60) (h2 : H2 < 24) (m2 : M2 < 60) :
    cleanse_time_range (some ⟨fmtHM H1 M1 ++ '-' :: fmtHM H2 M2⟩) =
      [[⟨fmtHM H1 M1⟩, ⟨fmtHM H2 M2⟩]] := by
  have hp : ∀ c ∈ fmtHM H1 M1 ++ '-' :: fmtHM H2 M2, plainChar c := by
    intro c hc
    rcases List.mem_append.mp hc with h | h
    · exact fmtHM_plain h1 m1 c h
    · rcases List.mem_cons.mp h with rfl | h
      · exact Or.inr (Or.inr rfl)
      · exact fmtHM_plain h2 m2 c h
  have hne : ¬(fmtHM H1 M1 ++ '-' :: fmtHM H2 M2) = [] := by simp
  have hlow : pyLower (fmtHM H1 M1 ++ '-' :: fmtHM H2 M2) =
      fmtHM H1 M1 ++ '-' :: fmtHM H2 M2 :=
    mapSelf fun c hc => plain_lower (hp c hc)
  have h24 : containsSub (fmtHM H1 M1 ++ '-' :: fmtHM H2 M2)
      "24 hours".data = false :=
    containsSub_false_plain hp 'h' (by decide) (not_plain (by decide))
  have hcl : containsSub (fmtHM H1 M1 ++ '-' :: fmtHM H2 M2)
      "closed".data = false :=
    containsSub_false_plain hp 'c' (by decide) (not_plain (by decide))
  have hfix1 : fix_irregular_time_format (fmtHM H1 M1) = fmtHM H1 M1 :=
    fix_irregular_colon _ _ _ _
  have hfix2 : fix_irregular_time_format (fmtHM H2 M2) = fmtHM H2 M2 :=
    fix_irregular_colon _ _ _ _
  have hPP : processPairs [fmtHM H1 M1, fmtHM H2 M2] =
      some [[fmtHM H1 M1, fmtHM H2 M2]] := by
    rw [processPairs.eq_3,
      if_neg (not_or.mpr ⟨fmtHM_ne_nil, fmtHM_ne_nil⟩)]
    dsimp only
    rw [infer_canonical h1 m1 h2 m2]
    dsimp only
    rw [hfix1, hfix2, convert_canonical h1 m1, convert_canonical h2 m2]
    rfl
  rw [cleanse_time_range]
  rw [show (String.mk (fmtHM H1 M1 ++ '-' :: fmtHM H2 M2)).data =
    fmtHM H1 M1 ++ '-' :: fmtHM H2 M2 from rfl]
  rw [pyStrip_plain hp, if_neg hne]
  dsimp only
  rw [hlow, h24, hcl]
  simp only [Bool.false_eq_true, if_false]
  rw [normalizeRange_canonical h1 m1 h2 m2,
    splitDash_append (fmtHM H2 M2) (fmtHM_ne_dash h2 m2) (fmtHM H1 M1)
      (fmtHM_ne_dash h1 m1), hPP]
  rfl

/-- Witness for C7 at the concrete range 09:00-17:30. -/
theorem cleanse_idempotent_canonical_witness :
    cleanse_time_range (some ⟨fmtHM 9 0 ++ '-' :: fmtHM 17 30⟩) =
      [[⟨fmtHM 9 0⟩, ⟨fmtHM 17 30⟩]] :=
  cleanse_idempotent_canonical 9 0 17 30 (by decide) (by decide) (by decide)
    (by decide)

end ETL
